import Mathlib

/-!
Verification development for the FileOrganizer repository
(`file_organizer_gui.go`).  The Go source is shallowly embedded: the core
functions `isTargetFile`, `getFileModifyDate`, `moveFile`, the scan walk of
`scanFiles` and the worker body / result collection of `processFiles` are
translated into executable Lean definitions, together with models of the Go
standard-library helpers they call (`filepath.Ext`, `filepath.Base`,
`filepath.Join`/`Clean`, `strings.ToLower`, `strings.Contains`,
`strings.HasPrefix`, and the `time.Format` reference layouts used).
Filesystem and clock effects are made explicit: every fallible system call's
outcome is an input (an environment record), and the model returns the
function's result together with the externally visible effects (files
created, removed, renamed, log lines, sleeps).
-/

namespace FileOrg

/-! ## Character/string helpers shared by the stdlib models -/

/-- Model of `strings.HasPrefix` at the character-list level. -/
def listPrefixOf : List Char → List Char → Bool
  | [], _ => true
  | _ :: _, [] => false
  | a :: as, b :: bs => a = b && listPrefixOf as bs

/-- Helper for `strContains`: does `needle` occur in the haystack list? -/
def strContainsAux (needle : List Char) : List Char → Bool
  | [] => needle.isEmpty
  | c :: rest => listPrefixOf needle (c :: rest) || strContainsAux needle rest

/-- Model of Go `strings.Contains s sub`. -/
def strContains (s sub : String) : Bool :=
  strContainsAux sub.data s.data

/-- Model of Go `strings.HasPrefix s pre`. -/
def strHasPrefixB (s pre : String) : Bool :=
  listPrefixOf pre.data s.data

/-- Model of Go `strings.ToLower` (ASCII case folding, which covers every
extension string the program manipulates). -/
def goToLower (s : String) : String := String.mk (s.data.map Char.toLower)

/-- Model of Go `strings.ToUpper` (ASCII). -/
def goToUpper (s : String) : String := String.mk (s.data.map Char.toUpper)

/-- Decimal digit character (`'0' + d` as Go's integer formatting emits). -/
def digitChar : Nat → Char
  | 0 => '0' | 1 => '1' | 2 => '2' | 3 => '3' | 4 => '4'
  | 5 => '5' | 6 => '6' | 7 => '7' | 8 => '8' | _ => '9'

/-- Decimal numeral of a natural number, most significant digit first
(`fuel` bounds the recursion; it is always at least the digit count). -/
def natDecAux : Nat → Nat → List Char
  | 0, _ => []
  | fuel + 1, n => if n < 10 then [digitChar n] else natDecAux fuel (n / 10) ++ [digitChar (n % 10)]

/-- Decimal rendering of a natural number (model of Go `%d`). -/
def natDec (n : Nat) : String := String.mk (natDecAux (n + 1) n)

/-! ## Model of `path/filepath` -/

/-- Helper for `goExt`: walk the reversed character list of a path,
accumulating the characters already passed (in original order); stop at a
path separator (no extension) or at a dot (extension starts there).  This is
exactly the backwards loop of Go `filepath.Ext`. -/
def goExtAux : List Char → List Char → List Char
  | [], _ => []
  | c :: rest, acc =>
    if c = '/' then []
    else if c = '.' then '.' :: acc
    else goExtAux rest (c :: acc)

/-- Model of Go `filepath.Ext`: the suffix beginning at the final dot in the
final slash-separated element; empty if there is no dot. -/
def goExt (path : String) : String :=
  String.mk (goExtAux path.data.reverse [])

/-- Helper for `goBase`: take characters (of a reversed path) up to the first
separator — i.e. the last path element, reversed. -/
def takeUntilSlash : List Char → List Char
  | [] => []
  | c :: r => if c = '/' then [] else c :: takeUntilSlash r

/-- Model of Go `filepath.Base` on Unix: strip trailing slashes, return the
last element; `"."` for the empty path, `"/"` for an all-slash path. -/
def goBase (path : String) : String :=
  if path = "" then "."
  else
    let rev := path.data.reverse.dropWhile (fun c => c = '/')
    if rev = [] then "/"
    else String.mk (takeUntilSlash rev).reverse

/-- Split a character list on `'/'` (model of splitting a path into
components; adjacent separators yield empty components, like
`strings.Split`). -/
def splitSlash : List Char → List (List Char)
  | [] => [[]]
  | c :: rest =>
    if c = '/' then [] :: splitSlash rest
    else
      match splitSlash rest with
      | [] => [[c]]
      | h :: t => (c :: h) :: t

/-- Component processing of Go `filepath.Clean` (Unix): drop empty and `.`
components, resolve `..` against the stack (`rooted` paths absorb leading
`..`).  The stack is kept in reverse order. -/
def cleanStack (rooted : Bool) : List (List Char) → List (List Char) → List (List Char)
  | [], stack => stack
  | comp :: rest, stack =>
    if comp = [] ∨ comp = ['.'] then cleanStack rooted rest stack
    else if comp = ['.', '.'] then
      if stack = [] then
        (if rooted then cleanStack rooted rest [] else cleanStack rooted rest [['.', '.']])
      else if stack.head? = some ['.', '.'] then cleanStack rooted rest (comp :: stack)
      else cleanStack rooted rest stack.tail
    else cleanStack rooted rest (comp :: stack)

/-- Interleave `'/'` between path components. -/
def intercalateSlash : List (List Char) → List Char
  | [] => []
  | [x] => x
  | x :: y :: rest => x ++ '/' :: intercalateSlash (y :: rest)

/-- Does the path start with a separator? -/
def isRooted : List Char → Bool
  | [] => false
  | c :: _ => c == '/'

/-- Final assembly of `filepath.Clean`: re-add the root slash, defaulting to
`"."` (or `"/"`) when everything cancelled. -/
def goCleanBody (rooted : Bool) (body : List Char) : List Char :=
  if rooted then
    if body = [] then ['/'] else '/' :: body
  else
    if body = [] then ['.'] else body

/-- Model of Go `filepath.Clean` (Unix rules) at the character-list level. -/
def goCleanL (p : List Char) : List Char :=
  if p = [] then ['.']
  else
    goCleanBody (isRooted p)
      (intercalateSlash (cleanStack (isRooted p) (splitSlash p) []).reverse)

/-- Model of Go `filepath.Clean` on strings. -/
def goClean (p : String) : String := String.mk (goCleanL p.data)

/-- Model of the two-argument Go `filepath.Join`: skip leading empty
elements, join the rest with `'/'`, and `Clean` the result. -/
def goJoin (a b : String) : String :=
  if a ≠ "" then goClean (a ++ "/" ++ b)
  else if b ≠ "" then goClean b
  else ""

/-! ## Model of the `time.Format` layouts used by the program -/

/-- Calendar timestamp (what the program reads off `time.Time`). -/
structure DateTime where
  year : Nat
  month : Nat
  day : Nat
  hour : Nat
  minute : Nat
  second : Nat
deriving DecidableEq, Repr

/-- Left-pad a decimal numeral with zeros to width `w` (Go `appendInt` with
a fixed width, as used by the reference layouts). -/
def padNat (w n : Nat) : String :=
  let s := natDec n
  if s.length < w then String.mk (List.replicate (w - s.length) '0') ++ s else s

/-- Go layout `"2006-01-02"`. -/
def fmtDashYMD (t : DateTime) : String :=
  padNat 4 t.year ++ "-" ++ padNat 2 t.month ++ "-" ++ padNat 2 t.day

/-- Go layout `"20060102"`. -/
def fmtCompactYMD (t : DateTime) : String :=
  padNat 4 t.year ++ padNat 2 t.month ++ padNat 2 t.day

/-- Go layout `"06-01-02"`. -/
def fmtDashYY (t : DateTime) : String :=
  padNat 2 (t.year % 100) ++ "-" ++ padNat 2 t.month ++ "-" ++ padNat 2 t.day

/-- Go layout `"060102"`. -/
def fmtCompactYY (t : DateTime) : String :=
  padNat 2 (t.year % 100) ++ padNat 2 t.month ++ padNat 2 t.day

/-- Go layout `"20060102_150405"` — the collision-avoidance timestamp of
`moveFile` (date plus time of day, second resolution). -/
def fmtStamp (t : DateTime) : String :=
  padNat 4 t.year ++ padNat 2 t.month ++ padNat 2 t.day ++ "_" ++
    padNat 2 t.hour ++ padNat 2 t.minute ++ padNat 2 t.second

/-! ## Models of the program's own pure helpers -/

/-- Loop body of `FileOrganizer.isTargetFile`: linear scan of the selected
extension list comparing against the lower-cased extension. -/
def isTargetFileGo (lowerExt : String) : List String → Bool
  | [] => false
  | ext :: rest => if lowerExt = ext then true else isTargetFileGo lowerExt rest

/-- Model of `FileOrganizer.isTargetFile`: lower-case the file's extension,
then scan `targetExts` for an exact match. -/
def isTargetFile (fileExt : String) (targetExts : List String) : Bool :=
  isTargetFileGo (goToLower fileExt) targetExts

/-- Model of `FileOrganizer.getFileModifyDate`: switch on the four fixed
pattern strings; anything else falls through to the default layout
`"2006-01-02"`. -/
def getFileModifyDate (modTime : DateTime) (format : String) : String :=
  match format with
  | "YYYY-MM-DD" => fmtDashYMD modTime
  | "YYYYMMDD" => fmtCompactYMD modTime
  | "YY-MM-DD" => fmtDashYY modTime
  | "YYMMDD" => fmtCompactYY modTime
  | _ => fmtDashYMD modTime

/-- Worker-count computation of `processFiles`: start from `runtime.NumCPU()`,
use 2 when fewer than 20 files, otherwise cap at 10. -/
def numWorkers (fileCount cpuCount : Nat) : Nat :=
  let n := cpuCount
  if fileCount < 20 then 2
  else if n > 10 then 10 else n

/-! ## Model of `moveFile`

Every fallible system call's outcome is an input (`MoveEnv`); the model
returns the Go function's return value together with its externally visible
effects (`MoveEffects`).  The deferred cleanup of the target file is
translated faithfully: it runs at function exit and consults the final value
of the single `err` variable of the Go function body. -/

/-- Outcomes of the system calls `moveFile` performs, in program order.
`renameRes i` is the result of the `i`-th `os.Rename` attempt (`none` =
success); the remaining fields are the fallback path's calls. -/
structure MoveEnv where
  mkdirErr : Option String
  destExists : Bool
  now : DateTime
  renameRes : Nat → Option String
  openErr : Option String
  createErr : Option String
  statErr : Option String
  copyErr : Option String
  removeErr : Option String

/-- What is left on disk at the computed destination path when `moveFile`
returns. -/
inductive DestState
  | absent
  | halfWritten
  | complete
deriving DecidableEq, Repr

/-- Return value plus externally visible effects of one `moveFile` call. -/
structure MoveEffects where
  targetPath : String
  renameAttempts : Nat
  sleepsMs : List Nat
  warnings : List String
  result : Option String
  sourcePresent : Bool
  destState : DestState
  touched : List String
deriving DecidableEq, Repr

/-- The retry loop of `moveFile`: up to `maxRetries` rename attempts,
sleeping 100ms between attempts, except that an error whose text contains
`"cross-device link"` (or exhaustion of the budget) breaks out immediately.
Returns (succeeded, attempts made, sleeps performed).  `fuel` is the number
of loop iterations remaining (`maxRetries - i`). -/
def renameGo (res : Nat → Option String) (maxRetries : Nat) : Nat → Nat → Bool × Nat × List Nat
  | _, 0 => (false, 0, [])
  | i, fuel + 1 =>
    match res i with
    | none => (true, 1, [])
    | some msg =>
      if i < maxRetries - 1 ∧ strContains msg "cross-device link" = false then
        let r := renameGo res maxRetries (i + 1) fuel
        (r.1, r.2.1 + 1, 100 :: r.2.2)
      else (false, 1, [])

/-- Model of `FileOrganizer.moveFile`.  The collision check, retry loop,
copy fallback and deferred cleanup follow the Go control flow branch by
branch; `touched` records each path at which a mutating file operation was
performed, in order. -/
def moveFile (sourcePath targetDir : String) (env : MoveEnv) : MoveEffects :=
  match env.mkdirErr with
  | some e =>
    { targetPath := "", renameAttempts := 0, sleepsMs := [], warnings := [],
      result := some ("创建目标目录失败: " ++ e),
      sourcePresent := true, destState := .absent, touched := [] }
  | none =>
    let fileName := goBase sourcePath
    let targetPath :=
      if env.destExists then
        let ext := goExt fileName
        let name := String.mk (fileName.data.take (fileName.data.length - ext.data.length))
        goJoin targetDir (name ++ "_" ++ fmtStamp env.now ++ ext)
      else goJoin targetDir fileName
    let r := renameGo env.renameRes 3 0 3
    if r.1 then
      { targetPath := targetPath, renameAttempts := r.2.1, sleepsMs := r.2.2,
        warnings := [], result := none,
        sourcePresent := false, destState := .complete,
        touched := [sourcePath, targetPath] }
    else
      match env.openErr with
      | some e =>
        { targetPath := targetPath, renameAttempts := r.2.1, sleepsMs := r.2.2,
          warnings := [], result := some ("打开源文件失败: " ++ e),
          sourcePresent := true, destState := .absent, touched := [] }
      | none =>
        match env.createErr with
        | some e =>
          { targetPath := targetPath, renameAttempts := r.2.1, sleepsMs := r.2.2,
            warnings := [], result := some ("创建目标文件失败: " ++ e),
            sourcePresent := true, destState := .absent, touched := [] }
        | none =>
          match env.statErr with
          | some e =>
            { targetPath := targetPath, renameAttempts := r.2.1, sleepsMs := r.2.2,
              warnings := [], result := some ("获取源文件信息失败: " ++ e),
              sourcePresent := true, destState := .absent,
              touched := [targetPath, targetPath] }
          | none =>
            match env.copyErr with
            | some e =>
              { targetPath := targetPath, renameAttempts := r.2.1, sleepsMs := r.2.2,
                warnings := [], result := some ("复制文件内容失败: " ++ e),
                sourcePresent := true, destState := .absent,
                touched := [targetPath, targetPath] }
            | none =>
              match env.removeErr with
              | some e =>
                { targetPath := targetPath, renameAttempts := r.2.1, sleepsMs := r.2.2,
                  warnings := ["警告: 已成功复制文件但无法删除原文件 " ++ sourcePath ++ ": " ++ e],
                  result := none,
                  sourcePresent := true, destState := .absent,
                  touched := [targetPath, targetPath] }
              | none =>
                { targetPath := targetPath, renameAttempts := r.2.1, sleepsMs := r.2.2,
                  warnings := [], result := none,
                  sourcePresent := false, destState := .complete,
                  touched := [targetPath, sourcePath] }

/-! ## Model of the scan walk (`scanFiles`)

The tree the walk observes is explicit data; a `badDir` node is a directory
whose entries cannot be read, so the walk callback receives its error.  The
callback of `scanFiles` returns every such error unchanged, which makes
`filepath.Walk` abort. -/

/-- A directory-tree snapshot as seen by `filepath.Walk`. -/
inductive FSEntry
  | file (name : String)
  | dir (name : String) (entries : List FSEntry)
  | badDir (name : String) (msg : String)
deriving Repr

/-- Accumulated scan state: `fo.scannedFiles` (in discovery order) and the
keys of `fo.scannedFileExtensions`. -/
structure ScanAcc where
  files : List String
  exts : List String
deriving DecidableEq, Repr

/-- Record one regular file: append its path, and insert its lower-cased
extension into the extension set when non-empty. -/
def recordFile (acc : ScanAcc) (path : String) : ScanAcc :=
  let fileExt := goToLower (goExt path)
  { files := acc.files ++ [path],
    exts := if fileExt ≠ "" ∧ fileExt ∉ acc.exts then acc.exts ++ [fileExt] else acc.exts }

mutual

/-- Walk one entry under `parent`.  Returns the updated accumulator and
`some msg` when the walk aborted with that error. -/
def walkEntry (parent : String) : FSEntry → ScanAcc → ScanAcc × Option String
  | .file n, acc => (recordFile acc (goJoin parent n), none)
  | .badDir _ msg, acc => (acc, some msg)
  | .dir n entries, acc => walkList (goJoin parent n) entries acc

/-- Walk a directory's entries in order, stopping at the first error. -/
def walkList (parent : String) : List FSEntry → ScanAcc → ScanAcc × Option String
  | [], acc => (acc, none)
  | e :: rest, acc =>
    match walkEntry parent e acc with
    | (a, none) => walkList parent rest a
    | (a, some m) => (a, some m)

end

/-- Model of the walk-and-report part of `FileOrganizer.scanFiles`:
run the walk from the source directory and produce the log lines the
completion callback emits (either the abort error or the two summary
lines). -/
def scanFiles (sourceDir : String) (entries : List FSEntry) : ScanAcc × List String :=
  let w := walkList sourceDir entries { files := [], exts := [] }
  match w.2 with
  | some m => (w.1, ["扫描出错: " ++ m])
  | none =>
    (w.1, ["扫描完成，共发现 " ++ natDec w.1.files.length ++ " 个文件",
           "发现 " ++ natDec w.1.exts.length ++ " 种文件后缀"])

/-! ## Model of the worker body and result collection (`processFiles`) -/

/-- Configuration fields consumed by the worker body (the Go `Config` also
carries `SourceDir` and `SizeRanges`, which this code path never reads). -/
structure Config where
  targetDir : String
  fileExtensions : List String
  folderDateFormat : String
  organizeRule : String
  extensionCase : String
deriving DecidableEq, Repr

/-- One unit of work: the file path plus the outcomes of the system calls
the worker will perform on it. -/
structure WorkFile where
  path : String
  statErr : Option String
  modTime : DateTime
  moveEnv : MoveEnv

/-- Which of the four worker branches produced the outcome. -/
inductive OutcomeKind
  | statFailed
  | skipped
  | moveFailed
  | moved
deriving DecidableEq, Repr

/-- One per-file outcome: branch taken, the message sent on the result
channel, and the move's effects when `moveFile` ran. -/
structure Outcome where
  kind : OutcomeKind
  message : String
  effects : Option MoveEffects
deriving DecidableEq, Repr

/-- The fixed message prefix `"[工作协程 %d] "`. -/
def workerTag (workerID : Nat) : String :=
  "[工作协程 " ++ natDec workerID ++ "] "

/-- The destination-directory switch of the worker body: by modification
date or by (case-adjusted) extension; any other rule string leaves the
initial empty string. -/
def computeTargetDir (config : Config) (filePath : String) (modTime : DateTime) : String :=
  match config.organizeRule with
  | "date" => goJoin config.targetDir (getFileModifyDate modTime config.folderDateFormat)
  | "extension" =>
    let tempFileExt := goExt filePath
    let cased :=
      if config.extensionCase = "uppercase" then goToUpper tempFileExt
      else goToLower tempFileExt
    goJoin config.targetDir cased
  | _ => ""

/-- Model of one iteration of the worker loop of `processFiles`: stat the
file, filter by extension, compute the destination directory, move, and emit
exactly one result message. -/
def processOne (config : Config) (workerID : Nat) (f : WorkFile) : Outcome :=
  match f.statErr with
  | some e =>
    { kind := .statFailed,
      message := workerTag workerID ++ "获取文件信息失败 " ++ f.path ++ ": " ++ e,
      effects := none }
  | none =>
    let fileExt := goExt f.path
    if isTargetFile fileExt config.fileExtensions = false then
      { kind := .skipped,
        message := workerTag workerID ++ "跳过不符合后缀的文件: " ++ f.path,
        effects := none }
    else
      let targetDir := computeTargetDir config f.path f.modTime
      let eff := moveFile f.path targetDir f.moveEnv
      match eff.result with
      | some e =>
        { kind := .moveFailed,
          message := workerTag workerID ++ "移动文件失败 " ++ f.path ++ ": " ++ e,
          effects := some eff }
      | none =>
        { kind := .moved,
          message := workerTag workerID ++ "已移动: " ++ goBase f.path ++ " -> " ++ targetDir,
          effects := some eff }

/-- Model of the result collector of `processFiles`: `processedCount` is
incremented for every message, `fileCount` only for messages that start with
`"[工作协程"` and contain `"已移动"`. -/
def collectCounts (msgs : List String) : Nat × Nat :=
  msgs.foldl
    (fun acc m =>
      (acc.1 + 1,
       if strHasPrefixB m "[工作协程" && strContains m "已移动" then acc.2 + 1 else acc.2))
    (0, 0)

/-- Model of the dispatch/collect protocol of `processFiles`, abstracted
over the (scheduling-dependent) assignment `wid` of files to worker ids:
every scanned file is handled by exactly one worker and yields exactly one
outcome; the collector then counts the messages. -/
def processFiles (config : Config) (files : List WorkFile) (wid : Nat → Nat) :
    List Outcome × Nat × Nat :=
  let outcomes := files.enum.map (fun p => processOne config (wid p.1) p.2)
  (outcomes, collectCounts (outcomes.map (fun o => o.message)))

/-! ## Supporting lemmas: strings and characters -/

theorem strExt (s t : String) (h : s.data = t.data) : s = t := by
  cases s
  cases t
  simp_all

theorem mk_ne_empty (d : List Char) (h : d ≠ []) : String.mk d ≠ "" := by
  intro e
  rw [show ("" : String) = String.mk [] from rfl] at e
  injection e with e2
  exact h e2

theorem listPrefixOf_self_append (p t : List Char) : listPrefixOf p (p ++ t) = true := by
  induction p with
  | nil => rfl
  | cons a as ih => simp [listPrefixOf, ih]

theorem strContainsAux_here (n r : List Char) : strContainsAux n (n ++ r) = true := by
  match n, r with
  | [], [] => rfl
  | [], c :: t => simp [strContainsAux, listPrefixOf]
  | a :: as, r =>
    show strContainsAux (a :: as) (a :: (as ++ r)) = true
    rw [strContainsAux, Bool.or_eq_true]
    exact Or.inl (listPrefixOf_self_append (a :: as) r)

theorem strContainsAux_skip (n x l : List Char) (h : strContainsAux n l = true) :
    strContainsAux n (x ++ l) = true := by
  induction x with
  | nil => simpa using h
  | cons c cs ih => simp [strContainsAux, ih]

theorem strContains_middle (a n b : String) :
    strContains (a ++ (n ++ b)) n = true := by
  show strContainsAux n.data (a ++ (n ++ b)).data = true
  rw [String.data_append, String.data_append]
  exact strContainsAux_skip _ _ _ (strContainsAux_here n.data b.data)

theorem strHasPrefixB_append (p t : String) :
    strHasPrefixB (p ++ t) p = true := by
  show listPrefixOf p.data (p ++ t).data = true
  rw [String.data_append]
  exact listPrefixOf_self_append p.data t.data

theorem digitChar_ne_slash (n : Nat) : digitChar n ≠ '/' := by
  unfold digitChar
  split <;> decide

theorem natDecAux_no_slash (fuel : Nat) : ∀ n, '/' ∉ natDecAux fuel n := by
  induction fuel with
  | zero => intro n; simp [natDecAux]
  | succ f ih =>
    intro n
    rw [natDecAux]
    by_cases h : n < 10
    · simp [h, digitChar_ne_slash]
      exact fun e => digitChar_ne_slash n e.symm
    · simp only [if_neg h, List.mem_append, List.mem_singleton]
      rintro (hm | he)
      · exact ih (n / 10) hm
      · exact digitChar_ne_slash (n % 10) he.symm

theorem natDec_no_slash (n : Nat) : '/' ∉ (natDec n).data :=
  natDecAux_no_slash (n + 1) n

theorem padNat_no_slash (w n : Nat) : '/' ∉ (padNat w n).data := by
  unfold padNat
  by_cases h : (natDec n).length < w
  · simp only [if_pos h, String.data_append]
    intro hm
    rcases List.mem_append.mp hm with hm | hm
    · have := (List.mem_replicate.mp hm).2
      simp at this
    · exact natDec_no_slash n hm
  · simp only [if_neg h]
    exact natDec_no_slash n

theorem no_slash_append (l1 l2 : List Char) (h1 : '/' ∉ l1) (h2 : '/' ∉ l2) :
    '/' ∉ l1 ++ l2 := by
  intro hm
  rcases List.mem_append.mp hm with h | h
  exacts [h1 h, h2 h]

theorem fmtStamp_no_slash (t : DateTime) : '/' ∉ (fmtStamp t).data := by
  unfold fmtStamp
  simp only [String.data_append]
  apply no_slash_append
  apply no_slash_append
  apply no_slash_append
  apply no_slash_append
  apply no_slash_append
  apply no_slash_append
  · exact padNat_no_slash 4 t.year
  · exact padNat_no_slash 2 t.month
  · exact padNat_no_slash 2 t.day
  · decide
  · exact padNat_no_slash 2 t.hour
  · exact padNat_no_slash 2 t.minute
  · exact padNat_no_slash 2 t.second

/-! ## Supporting lemmas: `goExt`, `goBase` -/

theorem goExtAux_skip (l : List Char) (rest acc : List Char)
    (h : ∀ c ∈ l, c ≠ '.' ∧ c ≠ '/') :
    goExtAux (l ++ rest) acc = goExtAux rest (l.reverse ++ acc) := by
  induction l generalizing acc with
  | nil => simp
  | cons c cs ih =>
    have hc := h c (List.mem_cons_self c cs)
    rw [List.cons_append, goExtAux, if_neg hc.2, if_neg hc.1]
    rw [ih (c :: acc) (fun x hx => h x (List.mem_cons_of_mem c hx))]
    simp

theorem goExt_dotfile (pre tl : List Char) (h : ∀ c ∈ tl, c ≠ '.' ∧ c ≠ '/') :
    goExt (String.mk (pre ++ '.' :: tl)) = String.mk ('.' :: tl) := by
  unfold goExt
  rw [show (String.mk (pre ++ '.' :: tl)).data = pre ++ '.' :: tl from rfl]
  rw [List.reverse_append, List.reverse_cons, List.append_assoc]
  rw [goExtAux_skip tl.reverse _ [] (fun c hc => h c (List.mem_reverse.mp hc))]
  rw [List.reverse_reverse]
  simp [goExtAux]

theorem goExt_trailing_dot (l : List Char) :
    goExt (String.mk (l ++ ['.'])) = "." := by
  unfold goExt
  rw [show (String.mk (l ++ ['.'])).data = l ++ ['.'] from rfl]
  rw [List.reverse_append]
  simp [goExtAux]

theorem goExtAux_length (r : List Char) : ∀ acc, (goExtAux r acc).length ≤ r.length + acc.length := by
  induction r with
  | nil => intro acc; simp [goExtAux]
  | cons c rest ih =>
    intro acc
    rw [goExtAux]
    by_cases h1 : c = '/'
    · simp [h1]
    · rw [if_neg h1]
      by_cases h2 : c = '.'
      · simp [h2]
        omega
      · rw [if_neg h2]
        have := ih (c :: acc)
        simp at this ⊢
        omega

theorem goExtAux_mem (r : List Char) : ∀ acc c, c ∈ goExtAux r acc → c ∈ r ∨ c ∈ acc := by
  induction r with
  | nil => intro acc c h; simp [goExtAux] at h
  | cons a rest ih =>
    intro acc c h
    rw [goExtAux] at h
    by_cases h1 : a = '/'
    · simp [h1] at h
    · rw [if_neg h1] at h
      by_cases h2 : a = '.'
      · rw [if_pos h2] at h
        rcases List.mem_cons.mp h with h | h
        · left; rw [h, h2]; exact List.mem_cons_self _ _
        · right; exact h
      · rw [if_neg h2] at h
        rcases ih (a :: acc) c h with h | h
        · left; exact List.mem_cons_of_mem a h
        · rcases List.mem_cons.mp h with h | h
          · left; rw [h]; exact List.mem_cons_self a rest
          · right; exact h

theorem takeUntilSlash_no_slash (l : List Char) : '/' ∉ takeUntilSlash l := by
  induction l with
  | nil => simp [takeUntilSlash]
  | cons c r ih =>
    rw [takeUntilSlash]
    by_cases h : c = '/'
    · simp [h]
    · rw [if_neg h]
      intro hm
      rcases List.mem_cons.mp hm with hm | hm
      · exact h hm.symm
      · exact ih hm

theorem goBase_no_slash (p : String) (h1 : goBase p ≠ "/") :
    '/' ∉ (goBase p).data := by
  unfold goBase at *
  by_cases he : p = ""
  · simp only [if_pos he]
    decide
  · simp only [if_neg he] at *
    by_cases hr : p.data.reverse.dropWhile (fun c => c = '/') = []
    · rw [if_pos hr] at h1
      exact absurd rfl h1
    · rw [if_neg hr] at *
      intro hm
      rw [show (String.mk (takeUntilSlash (p.data.reverse.dropWhile (fun c => c = '/'))).reverse).data
            = (takeUntilSlash (p.data.reverse.dropWhile (fun c => c = '/'))).reverse from rfl] at hm
      exact takeUntilSlash_no_slash _ (List.mem_reverse.mp hm)

/-! ## Supporting lemmas: `splitSlash`, `cleanStack`, `goClean`, `goJoin` -/

theorem splitSlash_ne_nil (p : List Char) : splitSlash p ≠ [] := by
  cases p with
  | nil => simp [splitSlash]
  | cons c rest =>
    rw [splitSlash]
    by_cases h : c = '/'
    · simp [h]
    · rw [if_neg h]
      cases splitSlash rest <;> simp

theorem splitSlash_no_slash (n : List Char) (h : '/' ∉ n) : splitSlash n = [n] := by
  induction n with
  | nil => rfl
  | cons c rest ih =>
    have hc : ¬ c = '/' := fun e => h (e ▸ List.mem_cons_self c rest)
    have hr : '/' ∉ rest := fun m => h (List.mem_cons_of_mem c m)
    rw [splitSlash, if_neg hc, ih hr]

theorem splitSlash_cons (c : Char) (rest : List Char) :
    splitSlash (c :: rest) =
      if c = '/' then [] :: splitSlash rest
      else (c :: (splitSlash rest).headD []) :: (splitSlash rest).tail := by
  rw [splitSlash]
  by_cases hc : c = '/'
  · rw [if_pos hc, if_pos hc]
  · rw [if_neg hc, if_neg hc]
    cases hr : splitSlash rest with
    | nil => exact absurd hr (splitSlash_ne_nil rest)
    | cons a t => rfl

theorem splitSlash_append (d n : List Char) (h : '/' ∉ n) :
    splitSlash (d ++ '/' :: n) = splitSlash d ++ [n] := by
  induction d with
  | nil =>
    rw [List.nil_append, splitSlash_cons, if_pos rfl, splitSlash_no_slash n h]
    rfl
  | cons c rest ih =>
    rw [List.cons_append, splitSlash_cons, splitSlash_cons, ih]
    by_cases hc : c = '/'
    · rw [if_pos hc, if_pos hc, List.cons_append]
    · rw [if_neg hc, if_neg hc]
      cases hr : splitSlash rest with
      | nil => exact absurd hr (splitSlash_ne_nil rest)
      | cons a t => simp

theorem cleanStack_append (r : Bool) (xs ys : List (List Char)) :
    ∀ s, cleanStack r (xs ++ ys) s = cleanStack r ys (cleanStack r xs s) := by
  induction xs with
  | nil => intro s; rfl
  | cons c rest ih =>
    intro s
    rw [List.cons_append, cleanStack, cleanStack]
    by_cases h1 : c = [] ∨ c = ['.']
    · rw [if_pos h1, if_pos h1, ih]
    · rw [if_neg h1, if_neg h1]
      by_cases h2 : c = ['.', '.']
      · rw [if_pos h2, if_pos h2]
        by_cases hs : s = []
        · rw [if_pos hs, if_pos hs]
          by_cases hr : r
          · rw [if_pos hr, if_pos hr, ih]
          · rw [if_neg hr, if_neg hr, ih]
        · rw [if_neg hs, if_neg hs]
          by_cases hh : s.head? = some ['.', '.']
          · rw [if_pos hh, if_pos hh, ih]
          · rw [if_neg hh, if_neg hh, ih]
      · rw [if_neg h2, if_neg h2, ih]

theorem cleanStack_normal (r : Bool) (n : List Char) (s : List (List Char))
    (h1 : n ≠ []) (h2 : n ≠ ['.']) (h3 : n ≠ ['.', '.']) :
    cleanStack r [n] s = n :: s := by
  rw [cleanStack, if_neg (fun h => h.elim h1 h2), if_neg h3]
  rfl

theorem intercalateSlash_append_cons (a : List Char) (xs : List (List Char)) (n : List Char) :
    intercalateSlash ((a :: xs) ++ [n]) = intercalateSlash (a :: xs) ++ '/' :: n := by
  induction xs generalizing a with
  | nil => rfl
  | cons b t ih =>
    show a ++ '/' :: intercalateSlash ((b :: t) ++ [n]) =
      (a ++ '/' :: intercalateSlash (b :: t)) ++ '/' :: n
    rw [ih b]
    simp

theorem intercalateSlash_append_ne (xs : List (List Char)) (n : List Char) (h : xs ≠ []) :
    intercalateSlash (xs ++ [n]) = intercalateSlash xs ++ '/' :: n := by
  cases xs with
  | nil => exact absurd rfl h
  | cons a t => exact intercalateSlash_append_cons a t n

/-- The part of `goClean (d ++ "/" ++ n)` that precedes the final component
`n`; it depends only on `d`. -/
def goCleanPre (d : List Char) : List Char :=
  (if isRooted d then ['/'] else []) ++
    (if cleanStack (isRooted d) (splitSlash d) [] = [] then []
     else intercalateSlash (cleanStack (isRooted d) (splitSlash d) []).reverse ++ ['/'])

theorem goCleanL_append (d n : List Char) (hd : d ≠ []) (h1 : '/' ∉ n)
    (h2 : n ≠ []) (h3 : n ≠ ['.']) (h4 : n ≠ ['.', '.']) :
    goCleanL (d ++ '/' :: n) = goCleanPre d ++ n := by
  have hp : d ++ '/' :: n ≠ [] := by
    cases d <;> simp
  have hroot : isRooted (d ++ '/' :: n) = isRooted d := by
    cases d with
    | nil => exact absurd rfl hd
    | cons a t => rfl
  rw [goCleanL, if_neg hp, hroot, splitSlash_append d n h1, cleanStack_append,
    cleanStack_normal _ n _ h2 h3 h4, goCleanPre, goCleanBody]
  cases hS : cleanStack (isRooted d) (splitSlash d) [] with
  | nil =>
    rw [List.reverse_cons, List.reverse_nil, List.nil_append, if_pos rfl]
    show (if isRooted d then if intercalateSlash [n] = [] then _ else _ else _) = _
    rw [show intercalateSlash [n] = n from rfl]
    by_cases hr : isRooted d
    · rw [if_pos hr, if_pos hr, if_neg h2]
      rfl
    · rw [if_neg hr, if_neg hr, if_neg h2]
      rfl
  | cons a t =>
    rw [List.reverse_cons, intercalateSlash_append_ne _ n (by simp),
      if_neg (by simp : ¬ (a :: t) = [])]
    have hbody : intercalateSlash ((a :: t).reverse) ++ '/' :: n ≠ [] := by simp
    by_cases hr : isRooted d
    · rw [if_pos hr, if_pos hr, if_neg hbody]
      simp
    · rw [if_neg hr, if_neg hr, if_neg hbody]
      simp

theorem goJoin_data (d n : List Char) (hd : d ≠ []) (h1 : '/' ∉ n)
    (h2 : n ≠ []) (h3 : n ≠ ['.']) (h4 : n ≠ ['.', '.']) :
    (goJoin (String.mk d) (String.mk n)).data = goCleanPre d ++ n := by
  rw [goJoin, if_pos (mk_ne_empty d hd)]
  have hdata : (String.mk d ++ "/" ++ String.mk n).data = d ++ '/' :: n := by
    rw [String.data_append, String.data_append, List.append_assoc]
    rfl
  show goCleanL (String.mk d ++ "/" ++ String.mk n).data = _
  rw [hdata]
  exact goCleanL_append d n hd h1 h2 h3 h4

theorem goJoin_inj (d n1 n2 : List Char) (hd : d ≠ [])
    (h11 : '/' ∉ n1) (h12 : n1 ≠ []) (h13 : n1 ≠ ['.']) (h14 : n1 ≠ ['.', '.'])
    (h21 : '/' ∉ n2) (h22 : n2 ≠ []) (h23 : n2 ≠ ['.']) (h24 : n2 ≠ ['.', '.'])
    (hne : n1 ≠ n2) :
    goJoin (String.mk d) (String.mk n1) ≠ goJoin (String.mk d) (String.mk n2) := by
  intro e
  have e2 : (goJoin (String.mk d) (String.mk n1)).data
      = (goJoin (String.mk d) (String.mk n2)).data := by rw [e]
  rw [goJoin_data d n1 hd h11 h12 h13 h14, goJoin_data d n2 hd h21 h22 h23 h24] at e2
  exact hne (List.append_cancel_left e2)

/-- Joining a `"."` component is a no-op up to `Clean`. -/
theorem goJoin_dot (t : String) (ht : t ≠ "") : goJoin t "." = goClean t := by
  obtain ⟨td⟩ := t
  have htd : td ≠ [] := by
    intro e
    exact ht (by rw [e])
  rw [goJoin, if_pos ht]
  apply strExt
  have hdata : (String.mk td ++ "/" ++ ".").data = td ++ '/' :: ['.'] := by
    rw [String.data_append, String.data_append, List.append_assoc]
    rfl
  show goCleanL (String.mk td ++ "/" ++ ".").data = goCleanL td
  rw [hdata]
  have hp : td ++ '/' :: ['.'] ≠ [] := by cases td <;> simp
  have hroot : isRooted (td ++ '/' :: ['.']) = isRooted td := by
    cases td with
    | nil => exact absurd rfl htd
    | cons a l => rfl
  rw [goCleanL, goCleanL, if_neg hp, if_neg htd, hroot]
  rw [splitSlash_append td ['.'] (by decide), cleanStack_append]
  rw [show ∀ r s, cleanStack r [['.']] s = s from fun r s => by
    rw [cleanStack, if_pos (Or.inr rfl)]
    rfl]

/-! ## Supporting lemmas: the rename retry loop and `moveFile` structure -/

theorem renameGo_succ (res : Nat → Option String) (mr i fuel : Nat) :
    renameGo res mr i (fuel + 1) =
      match res i with
      | none => (true, 1, [])
      | some msg =>
        if i < mr - 1 ∧ strContains msg "cross-device link" = false then
          let r := renameGo res mr (i + 1) fuel
          (r.1, r.2.1 + 1, 100 :: r.2.2)
        else (false, 1, []) := rfl

theorem renameGo_shape (res : Nat → Option String) :
    (renameGo res 3 0 3).2.1 ≤ 3 ∧ 1 ≤ (renameGo res 3 0 3).2.1 ∧
    (renameGo res 3 0 3).2.2 = List.replicate ((renameGo res 3 0 3).2.1 - 1) 100 := by
  rw [show (3 : Nat) = 2 + 1 from rfl, renameGo_succ]
  rcases h0 : res 0 with _ | m0
  · simp
  · simp only []
    by_cases c0 : 0 < 2 + 1 - 1 ∧ strContains m0 "cross-device link" = false
    · rw [if_pos c0]
      rw [show (2 : Nat) = 1 + 1 from rfl, renameGo_succ]
      rcases h1 : res (0 + 1) with _ | m1
      · simp
      · simp only []
        by_cases c1 : 0 + 1 < 1 + 1 + 1 - 1 ∧ strContains m1 "cross-device link" = false
        · rw [if_pos c1]
          rw [show (1 : Nat) = 0 + 1 from rfl, renameGo_succ]
          rcases h2 : res (0 + 1 + 1) with _ | m2
          · simp
          · simp only []
            by_cases c2 : 0 + 1 + 1 < 0 + 1 + 1 + 1 - 1 ∧ strContains m2 "cross-device link" = false
            · exact absurd c2.1 (by omega)
            · rw [if_neg c2]
              simp
        · rw [if_neg c1]
          simp
    · rw [if_neg c0]
      simp

theorem renameGo_all_fail (res : Nat → Option String)
    (h : ∀ i, i < 3 → res i ≠ none) :
    (renameGo res 3 0 3).1 = false := by
  rw [show (3 : Nat) = 2 + 1 from rfl, renameGo_succ]
  rcases h0 : res 0 with _ | m0
  · exact absurd h0 (h 0 (by omega))
  · simp only []
    by_cases c0 : 0 < 2 + 1 - 1 ∧ strContains m0 "cross-device link" = false
    · rw [if_pos c0]
      rw [show (2 : Nat) = 1 + 1 from rfl, renameGo_succ]
      rcases h1 : res (0 + 1) with _ | m1
      · exact absurd h1 (h 1 (by omega))
      · simp only []
        by_cases c1 : 0 + 1 < 1 + 1 + 1 - 1 ∧ strContains m1 "cross-device link" = false
        · rw [if_pos c1]
          rw [show (1 : Nat) = 0 + 1 from rfl, renameGo_succ]
          rcases h2 : res (0 + 1 + 1) with _ | m2
          · exact absurd h2 (h 2 (by omega))
          · simp only []
            by_cases c2 : 0 + 1 + 1 < 0 + 1 + 1 + 1 - 1 ∧ strContains m2 "cross-device link" = false
            · exact absurd c2.1 (by omega)
            · rw [if_neg c2]
        · rw [if_neg c1]
    · rw [if_neg c0]

theorem renameGo_cross_first (res : Nat → Option String) (j : Nat) (m : String)
    (hj : j < 3) (hm : res j = some m)
    (hc : strContains m "cross-device link" = true)
    (hbefore : ∀ k, k < j → ∃ m2, res k = some m2 ∧ strContains m2 "cross-device link" = false) :
    (renameGo res 3 0 3).1 = false ∧ (renameGo res 3 0 3).2.1 = j + 1 := by
  rw [show (3 : Nat) = 2 + 1 from rfl, renameGo_succ]
  interval_cases j
  · rw [show res 0 = some m from hm]
    simp only []
    rw [if_neg (by simp [hc])]
    simp
  · obtain ⟨m0, hm0, hc0⟩ := hbefore 0 (by omega)
    rw [hm0]
    simp only []
    rw [if_pos ⟨by omega, hc0⟩]
    rw [show (2 : Nat) = 1 + 1 from rfl, renameGo_succ]
    rw [show res (0 + 1) = some m from hm]
    simp only []
    rw [if_neg (by simp [hc])]
    simp
  · obtain ⟨m0, hm0, hc0⟩ := hbefore 0 (by omega)
    obtain ⟨m1, hm1, hc1⟩ := hbefore 1 (by omega)
    rw [hm0]
    simp only []
    rw [if_pos ⟨by omega, hc0⟩]
    rw [show (2 : Nat) = 1 + 1 from rfl, renameGo_succ]
    rw [show res (0 + 1) = some m1 from hm1]
    simp only []
    rw [if_pos ⟨by omega, hc1⟩]
    rw [show (1 : Nat) = 0 + 1 from rfl, renameGo_succ]
    rw [show res (0 + 1 + 1) = some m from hm]
    simp only []
    rw [if_neg (by omega)]
    simp

/-- The destination path `moveFile` computes before any rename attempt:
the collision policy applied to `destinationDir / baseName(sourcePath)`. -/
def plannedTarget (sourcePath targetDir : String) (destExists : Bool) (now : DateTime) : String :=
  let fileName := goBase sourcePath
  if destExists then
    let ext := goExt fileName
    let name := String.mk (fileName.data.take (fileName.data.length - ext.data.length))
    goJoin targetDir (name ++ "_" ++ fmtStamp now ++ ext)
  else goJoin targetDir fileName

theorem moveFile_targetPath (s t : String) (env : MoveEnv) (hmk : env.mkdirErr = none) :
    (moveFile s t env).targetPath = plannedTarget s t env.destExists env.now := by
  obtain ⟨mk, de, now, rr, oe, ce, se, cpe, re⟩ := env
  simp only [] at hmk
  subst hmk
  cases oe <;> cases ce <;> cases se <;> cases cpe <;> cases re <;>
    by_cases hr : (renameGo rr 3 0 3).1 <;>
      simp [moveFile, plannedTarget, hr]

theorem moveFile_renameFields (s t : String) (env : MoveEnv) (hmk : env.mkdirErr = none) :
    (moveFile s t env).renameAttempts = (renameGo env.renameRes 3 0 3).2.1 ∧
    (moveFile s t env).sleepsMs = (renameGo env.renameRes 3 0 3).2.2 := by
  obtain ⟨mk, de, now, rr, oe, ce, se, cpe, re⟩ := env
  simp only [] at hmk
  subst hmk
  cases oe <;> cases ce <;> cases se <;> cases cpe <;> cases re <;>
    by_cases hr : (renameGo rr 3 0 3).1 <;>
      simp [moveFile, hr]

theorem moveFile_touched (s t : String) (env : MoveEnv) (p : String)
    (hp : p ∈ (moveFile s t env).touched) :
    p = s ∨ p = (moveFile s t env).targetPath := by
  obtain ⟨mk, de, now, rr, oe, ce, se, cpe, re⟩ := env
  cases mk with
  | some e => simp [moveFile] at hp
  | none =>
    cases oe <;> cases ce <;> cases se <;> cases cpe <;> cases re <;>
      by_cases hr : (renameGo rr 3 0 3).1 <;>
        simp [moveFile, hr] at hp ⊢ <;> tauto

/-! ## Concrete fixtures used by witnesses and counterexamples -/

/-- Fixture: an environment in which every system call succeeds. -/
def okEnv : MoveEnv :=
  { mkdirErr := none, destExists := false,
    now := ⟨2024, 3, 5, 15, 4, 5⟩,
    renameRes := fun _ => none,
    openErr := none, createErr := none, statErr := none, copyErr := none,
    removeErr := none }

/-- Fixture: configuration selecting only `.txt`, organizing by extension. -/
def cfgTxt : Config :=
  { targetDir := "/t", fileExtensions := [".txt"], folderDateFormat := "YYYYMMDD",
    organizeRule := "extension", extensionCase := "lowercase" }

/-- Fixture: a `.txt` file whose move fully succeeds. -/
def reportFile : WorkFile :=
  { path := "/src/report.txt", statErr := none, modTime := ⟨2024, 3, 5, 0, 0, 0⟩,
    moveEnv := okEnv }

/-- Fixture: a `.JPG` file that the `.txt` filter skips. -/
def photoFile : WorkFile :=
  { path := "/src/photo.JPG", statErr := none, modTime := ⟨2024, 3, 5, 0, 0, 0⟩,
    moveEnv := okEnv }

/-! ## C9 -/

/-- C9: the worker count is the fixed small count 2 whenever fewer than 20
files were scanned (in particular for 5 files, whatever the hardware
parallelism is), and otherwise it is the hardware parallelism capped at the
fixed ceiling 10. -/
theorem numWorkers_policy (fileCount cpuCount : Nat) :
    (fileCount < 20 → numWorkers fileCount cpuCount = 2) ∧
    (20 ≤ fileCount → numWorkers fileCount cpuCount = min cpuCount 10) ∧
    numWorkers 5 cpuCount = 2 := by
  refine ⟨fun h => by simp [numWorkers, h], fun h => ?_, by simp [numWorkers]⟩
  have h2 : ¬ fileCount < 20 := by omega
  by_cases hc : cpuCount > 10
  · simp [numWorkers, h2, hc]
    omega
  · simp [numWorkers, h2, hc]
    omega

/-- Witness for C9: 5 files on a 64-way machine give 2 workers; 100 files
on a 64-way machine give 10 workers. -/
theorem numWorkers_policy_witness :
    numWorkers 5 64 = 2 ∧ numWorkers 100 64 = 10 := by
  refine ⟨(numWorkers_policy 5 64).1 (by omega), ?_⟩
  have h := (numWorkers_policy 100 64).2.1 (by omega)
  rw [h]
  decide

/-! ## C7 -/

/-- C7: the date classifier maps each of the four supported pattern strings
to the correspondingly formatted modification date (pattern `YYYYMMDD` on a
file modified 2024-03-05 yields `20240305`), and any other pattern string
falls back to the default four-digit year-month-day layout instead of
failing. -/
theorem getFileModifyDate_patterns (t : DateTime) (fmt : String) :
    getFileModifyDate t "YYYY-MM-DD" = fmtDashYMD t ∧
    getFileModifyDate t "YYYYMMDD" = fmtCompactYMD t ∧
    getFileModifyDate t "YY-MM-DD" = fmtDashYY t ∧
    getFileModifyDate t "YYMMDD" = fmtCompactYY t ∧
    (fmt ≠ "YYYY-MM-DD" → fmt ≠ "YYYYMMDD" → fmt ≠ "YY-MM-DD" → fmt ≠ "YYMMDD" →
      getFileModifyDate t fmt = fmtDashYMD t) ∧
    getFileModifyDate ⟨2024, 3, 5, 14, 30, 0⟩ "YYYYMMDD" = "20240305" := by
  refine ⟨rfl, rfl, rfl, rfl, ?_, by decide⟩
  intro h1 h2 h3 h4
  unfold getFileModifyDate
  split <;> simp_all

/-- Witness for C7: an unsupported pattern string yields the default
four-digit year-month-day formatting. -/
theorem getFileModifyDate_patterns_witness :
    getFileModifyDate ⟨2024, 3, 5, 14, 30, 0⟩ "DD/MM/YYYY" =
      fmtDashYMD ⟨2024, 3, 5, 14, 30, 0⟩ :=
  (getFileModifyDate_patterns ⟨2024, 3, 5, 14, 30, 0⟩ "DD/MM/YYYY").2.2.2.2.1
    (by decide) (by decide) (by decide) (by decide)

/-! ## C8 -/

theorem isTargetFileGo_mem (l : String) (xs : List String) :
    isTargetFileGo l xs = true ↔ l ∈ xs := by
  induction xs with
  | nil => simp [isTargetFileGo]
  | cons e rest ih =>
    rw [isTargetFileGo]
    by_cases h : l = e
    · simp [h]
    · simp [h, ih]

/-- C8: a file qualifies exactly when its lower-cased extension is a member
of the selected extension list (so the empty list lets nothing qualify),
and inside the worker a non-qualifying file produces the skip outcome with
its skip message — it is not moved and is not an error. -/
theorem isTargetFile_filter (fileExt : String) (exts : List String)
    (config : Config) (workerID : Nat) (f : WorkFile)
    (h1 : f.statErr = none)
    (h2 : isTargetFile (goExt f.path) config.fileExtensions = false) :
    (isTargetFile fileExt exts = true ↔ goToLower fileExt ∈ exts) ∧
    isTargetFile fileExt [] = false ∧
    (processOne config workerID f).kind = OutcomeKind.skipped ∧
    (processOne config workerID f).effects = none ∧
    (processOne config workerID f).message =
      workerTag workerID ++ "跳过不符合后缀的文件: " ++ f.path := by
  obtain ⟨path, se, mt, me⟩ := f
  simp only [] at h1 h2
  subst h1
  exact ⟨isTargetFileGo_mem _ _, rfl, by simp [processOne, h2],
    by simp [processOne, h2], by simp [processOne, h2]⟩

/-- Witness for C8: `.JPG` lower-cases to `.jpg`, which is not in the
`.txt`-only filter, so the worker records a skip with the skip message. -/
theorem isTargetFile_filter_witness :
    (isTargetFile ".JPG" [".txt", ".jpg"] = true ↔
      goToLower ".JPG" ∈ [".txt", ".jpg"]) ∧
    isTargetFile ".JPG" [] = false ∧
    (processOne cfgTxt 1 photoFile).kind = OutcomeKind.skipped ∧
    (processOne cfgTxt 1 photoFile).effects = none ∧
    (processOne cfgTxt 1 photoFile).message =
      workerTag 1 ++ "跳过不符合后缀的文件: " ++ photoFile.path :=
  isTargetFile_filter ".JPG" [".txt", ".jpg"] cfgTxt 1 photoFile rfl (by decide)

/-! ## C6 -/

/-- C6: past directory creation, the rename is attempted at most 3 times;
the only sleeps are 100ms backoffs strictly between consecutive attempts
(one fewer sleeps than attempts); and if the attempts before `j` failed
with non-cross-device errors while attempt `j` fails with an error whose
text contains "cross-device link", the loop stops after exactly `j + 1`
attempts without a successful rename — the remaining budget is abandoned
and the copy+delete fallback follows. -/
theorem moveFile_rename_retry (s t : String) (env : MoveEnv)
    (hmk : env.mkdirErr = none) :
    (moveFile s t env).renameAttempts ≤ 3 ∧
    (moveFile s t env).sleepsMs =
      List.replicate ((moveFile s t env).renameAttempts - 1) 100 ∧
    (∀ j m, j < 3 → env.renameRes j = some m →
      strContains m "cross-device link" = true →
      (∀ k, k < j → ∃ m2, env.renameRes k = some m2 ∧
        strContains m2 "cross-device link" = false) →
      (renameGo env.renameRes 3 0 3).1 = false ∧
      (moveFile s t env).renameAttempts = j + 1) := by
  obtain ⟨ha, hs⟩ := moveFile_renameFields s t env hmk
  obtain ⟨h1, _h2, h3⟩ := renameGo_shape env.renameRes
  refine ⟨?_, ?_, ?_⟩
  · rw [ha]
    exact h1
  · rw [hs, ha]
    exact h3
  · intro j m hj hm hc hb
    obtain ⟨hf, hatt⟩ := renameGo_cross_first env.renameRes j m hj hm hc hb
    exact ⟨hf, by rw [ha, hatt]⟩

/-- Fixture: every rename attempt fails with a cross-device error; the
fallback succeeds completely. -/
def crossEnv : MoveEnv :=
  { okEnv with renameRes := fun _ => some "invalid cross-device link" }

/-- Witness for C6: with a first-attempt cross-device failure there is
exactly one rename attempt (and no sleeps), within the budget of 3. -/
theorem moveFile_rename_retry_witness :
    (moveFile "/data/report.txt" "/backup/target" crossEnv).renameAttempts ≤ 3 ∧
    (moveFile "/data/report.txt" "/backup/target" crossEnv).renameAttempts = 0 + 1 ∧
    (moveFile "/data/report.txt" "/backup/target" crossEnv).sleepsMs = [] := by
  have h := moveFile_rename_retry "/data/report.txt" "/backup/target" crossEnv rfl
  have hc := (h.2.2 0 "invalid cross-device link" (by omega) rfl (by decide)
    (fun k hk => absurd hk (Nat.not_lt_zero k))).2
  refine ⟨h.1, hc, ?_⟩
  rw [h.2.1, hc]
  simp

/-! ## C3 -/

/-- C3: when no rename attempt succeeds and the fallback fails at opening
the source, creating the destination, or copying the bytes, `moveFile`
returns an error, nothing is left at the destination path (the deferred
cleanup removes a partially written file), and the source file still exists
with its content unchanged. -/
theorem moveFile_copy_failure_safe (s t : String) (env : MoveEnv)
    (hmk : env.mkdirErr = none)
    (hren : ∀ i, i < 3 → env.renameRes i ≠ none)
    (hfail : env.openErr ≠ none ∨ env.createErr ≠ none ∨ env.copyErr ≠ none) :
    (moveFile s t env).result ≠ none ∧
    (moveFile s t env).destState = DestState.absent ∧
    (moveFile s t env).sourcePresent = true := by
  have hr : (renameGo env.renameRes 3 0 3).1 = false := renameGo_all_fail env.renameRes hren
  obtain ⟨mk, de, now, rr, oe, ce, se, cpe, re⟩ := env
  simp only [] at hmk hr hfail
  subst hmk
  cases oe <;> cases ce <;> cases se <;> cases cpe <;> cases re <;>
    simp_all [moveFile, hr]

/-- Fixture: rename keeps failing, and the byte copy then fails. -/
def copyFailEnv : MoveEnv :=
  { okEnv with
    renameRes := (fun _ => some "device or resource busy")
    copyErr := some "no space left on device" }

/-- Witness for C3: a failing byte copy yields a failed move, an absent
destination file, and an intact source. -/
theorem moveFile_copy_failure_safe_witness :
    (moveFile "/data/report.txt" "/backup/target" copyFailEnv).result ≠ none ∧
    (moveFile "/data/report.txt" "/backup/target" copyFailEnv).destState = DestState.absent ∧
    (moveFile "/data/report.txt" "/backup/target" copyFailEnv).sourcePresent = true :=
  moveFile_copy_failure_safe "/data/report.txt" "/backup/target" copyFailEnv rfl
    (fun i _ => by simp [copyFailEnv, okEnv])
    (Or.inr (Or.inr (by simp [copyFailEnv, okEnv])))

/-! ## C1 -/

/-- Fixture: rename fails cross-device, the copy fully succeeds, and
deleting the source file fails. -/
def removeFailEnv : MoveEnv :=
  { okEnv with
    renameRes := (fun _ => some "invalid cross-device link")
    removeErr := some "permission denied" }

/-- C1 (code bug): rename fails, the fallback copy completes and is synced,
and deleting the source fails.  As specified, `moveFile` returns success
(nil) and logs the warning line — but the deferred cleanup then observes
the non-nil `err` left behind by `os.Remove` and deletes the fully copied
destination file.  On return the destination holds no copy of the bytes;
only the undeleted source file survives, contradicting the claim that
exactly one complete copy remains at the computed destination path. -/
theorem moveFile_delete_failure_removes_destination :
    (moveFile "/data/report.txt" "/backup/target" removeFailEnv).result = none ∧
    (moveFile "/data/report.txt" "/backup/target" removeFailEnv).warnings =
      ["警告: 已成功复制文件但无法删除原文件 /data/report.txt: permission denied"] ∧
    (moveFile "/data/report.txt" "/backup/target" removeFailEnv).sourcePresent = true ∧
    (moveFile "/data/report.txt" "/backup/target" removeFailEnv).destState =
      DestState.absent ∧
    (moveFile "/data/report.txt" "/backup/target" removeFailEnv).targetPath =
      "/backup/target/report.txt" ∧
    "/backup/target/report.txt" ∈
      (moveFile "/data/report.txt" "/backup/target" removeFailEnv).touched := by
  refine ⟨by decide, by decide, by decide, by decide, by decide, by decide⟩

/-! ## C2 -/

theorem walkList_append (p : String) (xs ys : List FSEntry) :
    ∀ acc, walkList p (xs ++ ys) acc =
      match walkList p xs acc with
      | (a, none) => walkList p ys a
      | (a, some m) => (a, some m) := by
  induction xs with
  | nil => intro acc; rfl
  | cons e rest ih =>
    intro acc
    simp only [List.cons_append, walkList]
    cases hw : walkEntry p e acc with
    | mk a err =>
      cases err with
      | none => simp [ih]
      | some m => simp

/-- C2 counterexample: one unreadable directory aborts the whole scan — the
file `a.txt` of the healthy sibling subtree is missing from the result and
`scanFiles` reports a scan error instead of completing. -/
theorem scanFiles_walk_error_cex :
    (scanFiles "/src" [FSEntry.badDir "locked" "permission denied",
        FSEntry.dir "sub" [FSEntry.file "a.txt"]]).1.files = [] ∧
    (scanFiles "/src" [FSEntry.badDir "locked" "permission denied",
        FSEntry.dir "sub" [FSEntry.file "a.txt"]]).2 =
      ["扫描出错: permission denied"] := by
  refine ⟨by decide, by decide⟩

/-- C2 amended: the walk callback returns every walk error unchanged, which
makes `filepath.Walk` abort the entire scan at the first unreadable
directory: the files recorded before the error are kept, every entry after
it (and in particular every unaffected later subtree) is never visited, and
`scanFiles` logs the error line instead of the completion summary. -/
theorem scanFiles_walk_error_aborts (src : String) (pre post : List FSEntry)
    (dname msg : String)
    (hpre : (walkList src pre { files := [], exts := [] }).2 = none) :
    scanFiles src (pre ++ FSEntry.badDir dname msg :: post) =
      ((walkList src pre { files := [], exts := [] }).1,
       ["扫描出错: " ++ msg]) := by
  rcases hw : walkList src pre { files := [], exts := [] } with ⟨a, err⟩
  have h2 : err = none := by
    rw [hw] at hpre
    exact hpre
  subst h2
  unfold scanFiles
  rw [walkList_append, hw]
  simp [walkList, walkEntry]

/-- Witness for C2's amended statement: a file scanned before the bad
directory is kept; the subtree after it is lost; the error is logged. -/
theorem scanFiles_walk_error_aborts_witness :
    scanFiles "/src" [FSEntry.file "keep.txt", FSEntry.badDir "locked" "permission denied",
        FSEntry.dir "sub" [FSEntry.file "lost.txt"]] =
      ((walkList "/src" [FSEntry.file "keep.txt"] { files := [], exts := [] }).1,
       ["扫描出错: permission denied"]) :=
  scanFiles_walk_error_aborts "/src" [FSEntry.file "keep.txt"]
    [FSEntry.dir "sub" [FSEntry.file "lost.txt"]] "locked" "permission denied" (by decide)

/-! ## C4 -/

/-- The textual test the collector applies to decide that a result message
reports a successful move. -/
def movedMsg (m : String) : Bool :=
  strHasPrefixB m "[工作协程" && strContains m "已移动"

theorem strContains_skipL (x t n : String) (h : strContains t n = true) :
    strContains (x ++ t) n = true := by
  unfold strContains at *
  rw [String.data_append]
  exact strContainsAux_skip _ _ _ h

theorem strContains_head (n b : String) : strContains (n ++ b) n = true := by
  unfold strContains
  rw [String.data_append]
  exact strContainsAux_here _ _

/-- A success message always passes the collector's textual test. -/
theorem movedMsg_of_moved (wid : Nat) (b td : String) :
    movedMsg (workerTag wid ++ "已移动: " ++ b ++ " -> " ++ td) = true := by
  unfold movedMsg
  rw [Bool.and_eq_true]
  constructor
  · unfold workerTag
    rw [show ("[工作协程 " : String) = "[工作协程" ++ " " from by decide]
    simp only [String.append_assoc]
    exact strHasPrefixB_append _ _
  · unfold workerTag
    rw [show ("已移动: " : String) = "已移动" ++ ": " from by decide]
    simp only [String.append_assoc]
    apply strContains_skipL
    apply strContains_skipL
    apply strContains_skipL
    exact strContains_head _ _

theorem processOne_eq_moved (config : Config) (wid : Nat) (path : String)
    (mt : DateTime) (me : MoveEnv)
    (hq : ¬ isTargetFile (goExt path) config.fileExtensions = false)
    (hres : (moveFile path (computeTargetDir config path mt) me).result = none) :
    processOne config wid ⟨path, none, mt, me⟩ =
      { kind := OutcomeKind.moved,
        message := workerTag wid ++ "已移动: " ++ goBase path ++ " -> " ++
          computeTargetDir config path mt,
        effects := some (moveFile path (computeTargetDir config path mt) me) } := by
  simp [processOne, hq, hres]

theorem processOne_moved_msg (config : Config) (wid : Nat) (f : WorkFile)
    (h : (processOne config wid f).kind = OutcomeKind.moved) :
    movedMsg (processOne config wid f).message = true := by
  obtain ⟨path, se, mt, me⟩ := f
  rcases se with _ | e
  · by_cases hq : isTargetFile (goExt path) config.fileExtensions = false
    · have hk : (processOne config wid ⟨path, none, mt, me⟩).kind = OutcomeKind.skipped := by
        simp [processOne, hq]
      rw [hk] at h
      exact absurd h (by simp)
    · rcases hres : (moveFile path (computeTargetDir config path mt) me).result with _ | e2
      · rw [processOne_eq_moved config wid path mt me hq hres]
        exact movedMsg_of_moved wid (goBase path) (computeTargetDir config path mt)
      · have hk : (processOne config wid ⟨path, none, mt, me⟩).kind
            = OutcomeKind.moveFailed := by
          simp [processOne, hq, hres]
        rw [hk] at h
        exact absurd h (by simp)
  · have hk : (processOne config wid ⟨path, some e, mt, me⟩).kind
        = OutcomeKind.statFailed := by
      simp [processOne]
    rw [hk] at h
    exact absurd h (by simp)

theorem collectCounts_go (msgs : List String) : ∀ p : Nat × Nat,
    msgs.foldl
      (fun acc m =>
        (acc.1 + 1,
         if strHasPrefixB m "[工作协程" && strContains m "已移动" then acc.2 + 1 else acc.2))
      p
      = (p.1 + msgs.length, p.2 + msgs.countP movedMsg) := by
  induction msgs with
  | nil => intro p; simp
  | cons m rest ih =>
    intro p
    rw [List.foldl_cons, ih, List.countP_cons]
    by_cases h : movedMsg m = true
    · have hraw : (strHasPrefixB m "[工作协程" && strContains m "已移动") = true := h
      apply Prod.ext <;> simp [hraw, h] <;> omega
    · have hraw : (strHasPrefixB m "[工作协程" && strContains m "已移动") = false :=
        Bool.eq_false_iff.mpr h
      have h2 : movedMsg m = false := Bool.eq_false_iff.mpr h
      apply Prod.ext <;> simp [hraw, h2] <;> omega

theorem collectCounts_eq (msgs : List String) :
    collectCounts msgs = (msgs.length, msgs.countP movedMsg) := by
  have h := collectCounts_go msgs (0, 0)
  simpa [collectCounts] using h

/-- Fixture: a non-`.txt` file living under a directory whose name contains
the characters 已移动, so its skip message contains the collector's marker
substring. -/
def trickFile : WorkFile :=
  { path := "/src/已移动/data.bin", statErr := none, modTime := ⟨2024, 3, 5, 0, 0, 0⟩,
    moveEnv := okEnv }

/-- C4 counterexample: a run whose single input file is skipped (its only
outcome has kind skipped, no move happened), yet the final summary counts
checked = 1 and moved = 1, because the skip message embeds the file path and
the path contains the substring the collector greps for. -/
theorem processFiles_moved_count_cex :
    (processFiles cfgTxt [trickFile] (fun _ => 1)).2 = (1, 1) ∧
    ((processFiles cfgTxt [trickFile] (fun _ => 1)).1.filter
      (fun o => o.kind == OutcomeKind.moved)).length = 0 ∧
    (processFiles cfgTxt [trickFile] (fun _ => 1)).1.map (fun o => o.kind)
      = [OutcomeKind.skipped] := by
  refine ⟨by decide, by decide, by decide⟩

/-- C4 amended: every input file yields exactly one outcome and `checked`
equals the number of input files, unconditionally; `moved` counts the
outcomes whose message starts with the worker prefix and contains 已移动,
which equals the number of outcomes of kind moved provided no skip/failure
message happens to contain that substring (e.g. via the file path). -/
theorem processFiles_counts (config : Config) (files : List WorkFile) (wid : Nat → Nat)
    (h : ∀ p ∈ files.enum,
      (processOne config (wid p.1) p.2).kind ≠ OutcomeKind.moved →
      strContains (processOne config (wid p.1) p.2).message "已移动" = false) :
    (processFiles config files wid).1.length = files.length ∧
    (processFiles config files wid).2.1 = files.length ∧
    (processFiles config files wid).2.2 =
      ((processFiles config files wid).1.filter
        (fun o => o.kind == OutcomeKind.moved)).length := by
  unfold processFiles
  refine ⟨by simp, ?_, ?_⟩
  · simp [collectCounts_eq]
  · simp only [collectCounts_eq]
    rw [← List.countP_eq_length_filter, List.countP_map, List.countP_map, List.countP_map]
    apply List.countP_congr
    intro p hp
    simp only [Function.comp]
    constructor
    · intro hmm
      by_cases hk : (processOne config (wid p.1) p.2).kind = OutcomeKind.moved
      · simp [hk]
      · have hc := h p hp hk
        have hfalse : movedMsg (processOne config (wid p.1) p.2).message = false := by
          unfold movedMsg
          rw [hc, Bool.and_false]
        rw [hfalse] at hmm
        exact absurd hmm (by simp)
    · intro hk
      have hk2 : (processOne config (wid p.1) p.2).kind = OutcomeKind.moved := by
        simpa using hk
      exact processOne_moved_msg config (wid p.1) p.2 hk2

/-- Witness for C4's amended statement: one successful move and one skip
give checked = 2 and moved = 1 = number of moved outcomes. -/
theorem processFiles_counts_witness :
    (processFiles cfgTxt [reportFile, photoFile] (fun _ => 1)).1.length = 2 ∧
    (processFiles cfgTxt [reportFile, photoFile] (fun _ => 1)).2.1 = 2 ∧
    (processFiles cfgTxt [reportFile, photoFile] (fun _ => 1)).2.2 =
      ((processFiles cfgTxt [reportFile, photoFile] (fun _ => 1)).1.filter
        (fun o => o.kind == OutcomeKind.moved)).length := by
  have h := processFiles_counts cfgTxt [reportFile, photoFile] (fun _ => 1) (by decide)
  exact ⟨by simpa using h.1, by simpa using h.2.1, h.2.2⟩

/-! ## C5 -/

theorem dropWhile_head_not (p : Char → Bool) (l : List Char) :
    ∀ c r, l.dropWhile p = c :: r → p c = false := by
  induction l with
  | nil => intro c r h; simp at h
  | cons a t ih =>
    intro c r h
    rw [List.dropWhile_cons] at h
    by_cases hp : p a = true
    · rw [if_pos hp] at h
      exact ih c r h
    · rw [if_neg hp] at h
      injection h with h1 _
      rw [← h1]
      exact Bool.eq_false_iff.mpr hp

theorem goBase_ne_empty (p : String) : goBase p ≠ "" := by
  unfold goBase
  by_cases he : p = ""
  · rw [if_pos he]
    decide
  · rw [if_neg he]
    by_cases hr : p.data.reverse.dropWhile (fun c => c = '/') = []
    · rw [if_pos hr]
      decide
    · rw [if_neg hr]
      apply mk_ne_empty
      intro hrev
      rw [List.reverse_eq_nil_iff] at hrev
      cases hd : p.data.reverse.dropWhile (fun c => c = '/') with
      | nil => exact hr hd
      | cons c r =>
        have hc := dropWhile_head_not _ _ c r hd
        rw [hd, takeUntilSlash, if_neg (of_decide_eq_false hc)] at hrev
        simp at hrev

/-- C5: on a collision (a file already exists at the naive destination
path), the destination path `moveFile` actually uses is distinct from the
naive one and decomposes as a prefix followed by an underscore, the
second-resolution timestamp and the original extension; the path depends
only on the pre-move observations (the collision check and the clock), not
on any rename/copy outcome, i.e. it is computed once before any move
attempt; and the pre-existing file at the naive path is never operated on. -/
theorem moveFile_collision_policy (s t : String) (env : MoveEnv)
    (hmk : env.mkdirErr = none) (hex : env.destExists = true)
    (ht : t ≠ "")
    (hb1 : goBase s ≠ "/") (hb2 : goBase s ≠ ".") (hb3 : goBase s ≠ "..")
    (hsrc : s ≠ goJoin t (goBase s)) :
    (moveFile s t env).targetPath ≠ goJoin t (goBase s) ∧
    (∃ pre : List Char,
      (moveFile s t env).targetPath.data =
        pre ++ ('_' :: ((fmtStamp env.now).data ++ (goExt (goBase s)).data))) ∧
    (∀ env2 : MoveEnv, env2.mkdirErr = none → env2.destExists = true →
      env2.now = env.now →
      (moveFile s t env2).targetPath = (moveFile s t env).targetPath) ∧
    goJoin t (goBase s) ∉ (moveFile s t env).touched := by
  have htd : t.data ≠ [] := fun e => ht (strExt t "" (by rw [e]))
  have hn1 : '/' ∉ (goBase s).data := goBase_no_slash s hb1
  have hn2 : (goBase s).data ≠ [] := fun e => goBase_ne_empty s (strExt _ "" (by rw [e]))
  have hn3 : (goBase s).data ≠ ['.'] := fun e => hb2 (strExt _ "." (by rw [e]))
  have hn4 : (goBase s).data ≠ ['.', '.'] := fun e => hb3 (strExt _ ".." (by rw [e]))
  have htp : ∀ env0 : MoveEnv, env0.mkdirErr = none → env0.destExists = true →
      (moveFile s t env0).targetPath =
        goJoin t (String.mk ((goBase s).data.take
            ((goBase s).data.length - (goExt (goBase s)).data.length))
          ++ "_" ++ fmtStamp env0.now ++ goExt (goBase s)) := by
    intro env0 h0 h1
    rw [moveFile_targetPath s t env0 h0]
    simp [plannedTarget, h1]
  have hcolldata : (String.mk ((goBase s).data.take
        ((goBase s).data.length - (goExt (goBase s)).data.length))
      ++ "_" ++ fmtStamp env.now ++ goExt (goBase s)).data =
      ((goBase s).data.take
        ((goBase s).data.length - (goExt (goBase s)).data.length)) ++
        ('_' :: ((fmtStamp env.now).data ++ (goExt (goBase s)).data)) := by
    rw [String.data_append, String.data_append, String.data_append]
    simp [List.append_assoc]
  set colld := (String.mk ((goBase s).data.take
      ((goBase s).data.length - (goExt (goBase s)).data.length))
    ++ "_" ++ fmtStamp env.now ++ goExt (goBase s)).data with hcd
  have hc1 : '/' ∉ colld := by
    rw [hcolldata]
    intro hm0
    rcases List.mem_append.mp hm0 with hm0 | hm0
    · exact hn1 (List.take_subset _ _ hm0)
    · rcases List.mem_cons.mp hm0 with hm0 | hm0
      · exact absurd hm0 (by decide)
      · rcases List.mem_append.mp hm0 with hm0 | hm0
        · exact fmtStamp_no_slash env.now hm0
        · rcases goExtAux_mem _ _ _ hm0 with hm2 | hm2
          · exact hn1 (List.mem_reverse.mp hm2)
          · simp at hm2
  have hc2 : '_' ∈ colld := by
    rw [hcolldata]
    exact List.mem_append.mpr (Or.inr (List.mem_cons_self _ _))
  have hc3 : colld ≠ [] := fun e => by rw [e] at hc2; simp at hc2
  have hc4 : colld ≠ ['.'] := fun e => by rw [e] at hc2; simp at hc2
  have hc5 : colld ≠ ['.', '.'] := fun e => by rw [e] at hc2; simp at hc2
  have hnmlen : ((goBase s).data.take
      ((goBase s).data.length - (goExt (goBase s)).data.length)).length =
      (goBase s).data.length - (goExt (goBase s)).data.length := by
    rw [List.length_take]
    omega
  have hne : colld ≠ (goBase s).data := by
    intro e
    have hl : colld.length = (goBase s).data.length := by rw [e]
    rw [hcolldata] at hl
    simp only [List.length_append, List.length_cons, hnmlen] at hl
    omega
  have hdistinct : (moveFile s t env).targetPath ≠ goJoin t (goBase s) := by
    rw [htp env hmk hex]
    exact goJoin_inj t.data colld (goBase s).data htd hc1 hc3 hc4 hc5
      hn1 hn2 hn3 hn4 hne
  refine ⟨hdistinct, ?_, ?_, ?_⟩
  · rw [htp env hmk hex]
    have hjd := goJoin_data t.data colld htd hc1 hc3 hc4 hc5
    refine ⟨goCleanPre t.data ++ ((goBase s).data.take
      ((goBase s).data.length - (goExt (goBase s)).data.length)), hjd.trans ?_⟩
    rw [hcolldata, List.append_assoc]
  · intro env2 h0 h1 h2
    rw [htp env2 h0 h1, htp env hmk hex, h2]
  · intro hmem
    rcases moveFile_touched s t env _ hmem with h | h
    · exact hsrc h.symm
    · exact hdistinct h.symm

/-- Fixture: all syscalls succeed but the naive destination already holds a
file, triggering the collision policy. -/
def collEnv : MoveEnv := { okEnv with destExists := true }

/-- Witness for C5: the collision path is the timestamped one, distinct from
the naive path, and the naive path is never touched. -/
theorem moveFile_collision_policy_witness :
    (moveFile "/data/docs/report.txt" "/backup/target" collEnv).targetPath ≠
      goJoin "/backup/target" (goBase "/data/docs/report.txt") ∧
    goJoin "/backup/target" (goBase "/data/docs/report.txt") ∉
      (moveFile "/data/docs/report.txt" "/backup/target" collEnv).touched ∧
    (moveFile "/data/docs/report.txt" "/backup/target" collEnv).targetPath =
      "/backup/target/report_20240305_150405.txt" := by
  have h := moveFile_collision_policy "/data/docs/report.txt" "/backup/target" collEnv
    rfl rfl (by decide) (by decide) (by decide) (by decide) (by decide)
  exact ⟨h.1, h.2.2.2, by decide⟩

/-! ## C10 -/

/-- Fixture: a ByExtension configuration with a clean target root. -/
def cfgDot : Config :=
  { targetDir := "/t", fileExtensions := [".gitignore"], folderDateFormat := "YYYYMMDD",
    organizeRule := "extension", extensionCase := "lowercase" }

/-- C10: for a dotfile (only dot is the leading one), `filepath.Ext` of the
scanned path is the entire file name, so the scan records the whole
lower-cased name as the file's extension and the ByExtension rule (with
lowercase casing) uses it as the destination subdirectory; for a name
ending in a bare dot the extension is `"."`, so the computed destination
directory — the path join of the target root with `"."` — is the (clean)
target root itself. -/
theorem dotfile_extension_classification
    (parent n m : String) (acc : ScanAcc) (cfg : Config) (tmod : DateTime)
    (hparent : parent ≠ "")
    (hhead : n.data.head? = some '.')
    (htl : ∀ c ∈ n.data.tail, c ≠ '.' ∧ c ≠ '/')
    (hnd : n ≠ ".")
    (hm : ∃ l, m.data = l ++ ['.'])
    (hms : '/' ∉ m.data) (hm1 : m ≠ ".") (hm2 : m ≠ "..")
    (hrule : cfg.organizeRule = "extension")
    (hcase : cfg.extensionCase ≠ "uppercase")
    (htd : cfg.targetDir ≠ "") (hclean : goClean cfg.targetDir = cfg.targetDir) :
    goExt (goJoin parent n) = n ∧
    goToLower n ∈ (walkEntry parent (FSEntry.file n) acc).1.exts ∧
    computeTargetDir cfg (goJoin parent n) tmod = goJoin cfg.targetDir (goToLower n) ∧
    goExt (goJoin parent m) = "." ∧
    computeTargetDir cfg (goJoin parent m) tmod = cfg.targetDir := by
  have hpd : parent.data ≠ [] := fun e => hparent (strExt parent "" (by rw [e]))
  rcases hd : n.data with _ | ⟨c, tl⟩
  · rw [hd] at hhead
    simp at hhead
  · have hc : c = '.' := by
      rw [hd] at hhead
      simpa using hhead
    subst hc
    have htl2 : ∀ x ∈ tl, x ≠ '.' ∧ x ≠ '/' := by
      intro x hx
      apply htl
      rw [hd]
      exact hx
    have hn1 : '/' ∉ n.data := by
      rw [hd]
      intro hm0
      rcases List.mem_cons.mp hm0 with h | h
      · exact absurd h (by decide)
      · exact (htl2 _ h).2 rfl
    have hn2 : n.data ≠ [] := by rw [hd]; simp
    have hn3 : n.data ≠ ['.'] := fun e => hnd (strExt n "." (by rw [e]))
    have hn4 : n.data ≠ ['.', '.'] := by
      rw [hd]
      intro e
      injection e with _ e2
      have : ('.' : Char) ∈ tl := by rw [e2]; simp
      exact (htl2 _ this).1 rfl
    have hjoin : (goJoin parent n).data = goCleanPre parent.data ++ n.data :=
      goJoin_data parent.data n.data hpd hn1 hn2 hn3 hn4
    have ha : goExt (goJoin parent n) = n := by
      have h1 : goExt (goJoin parent n)
          = goExt (String.mk (goCleanPre parent.data ++ '.' :: tl)) := by
        apply congrArg goExt
        apply strExt
        rw [hjoin, hd]
      rw [h1, goExt_dotfile (goCleanPre parent.data) tl htl2]
      apply strExt
      rw [hd]
    have hlow_ne : goToLower n ≠ "" := by
      apply mk_ne_empty
      rw [hd]
      simp
    have hb : goToLower n ∈ (walkEntry parent (FSEntry.file n) acc).1.exts := by
      show goToLower n ∈ (recordFile acc (goJoin parent n)).exts
      simp only [recordFile, ha]
      by_cases hmem : goToLower n ∈ acc.exts
      · by_cases hcond : goToLower n ≠ "" ∧ goToLower n ∉ acc.exts
        · exact absurd hmem hcond.2
        · rw [if_neg hcond]
          exact hmem
      · rw [if_pos ⟨hlow_ne, hmem⟩]
        simp
    have hcrule : computeTargetDir cfg (goJoin parent n) tmod
        = goJoin cfg.targetDir (goToLower n) := by
      simp only [computeTargetDir, hrule]
      rw [ha, if_neg hcase]
    obtain ⟨l, hmdata⟩ := hm
    have hm0 : m.data ≠ [] := by rw [hmdata]; simp
    have hm3 : m.data ≠ ['.'] := fun e => hm1 (strExt m "." (by rw [e]))
    have hm4 : m.data ≠ ['.', '.'] := fun e => hm2 (strExt m ".." (by rw [e]))
    have hjm : (goJoin parent m).data = goCleanPre parent.data ++ m.data :=
      goJoin_data parent.data m.data hpd hms hm0 hm3 hm4
    have hdm : goExt (goJoin parent m) = "." := by
      have h1 : goExt (goJoin parent m)
          = goExt (String.mk ((goCleanPre parent.data ++ l) ++ ['.'])) := by
        apply congrArg goExt
        apply strExt
        rw [hjm, hmdata]
        simp [List.append_assoc]
      rw [h1]
      exact goExt_trailing_dot _
    have hdm2 : computeTargetDir cfg (goJoin parent m) tmod = cfg.targetDir := by
      simp only [computeTargetDir, hrule]
      rw [hdm, if_neg hcase]
      rw [show goToLower "." = "." from by decide]
      rw [goJoin_dot cfg.targetDir htd, hclean]
    exact ⟨ha, hb, hcrule, hdm, hdm2⟩

/-- Witness for C10: `.gitignore` under `/src` classifies to subdirectory
`.gitignore` (lower-cased whole name); `notes.` has extension `"."` and its
ByExtension destination is the target root `/t` itself. -/
theorem dotfile_extension_classification_witness :
    goExt (goJoin "/src" ".gitignore") = ".gitignore" ∧
    goToLower ".gitignore" ∈
      (walkEntry "/src" (FSEntry.file ".gitignore") { files := [], exts := [] }).1.exts ∧
    computeTargetDir cfgDot (goJoin "/src" ".gitignore") ⟨2024, 3, 5, 0, 0, 0⟩ =
      goJoin cfgDot.targetDir (goToLower ".gitignore") ∧
    goExt (goJoin "/src" "notes.") = "." ∧
    computeTargetDir cfgDot (goJoin "/src" "notes.") ⟨2024, 3, 5, 0, 0, 0⟩ =
      cfgDot.targetDir :=
  dotfile_extension_classification "/src" ".gitignore" "notes."
    { files := [], exts := [] } cfgDot ⟨2024, 3, 5, 0, 0, 0⟩
    (by decide) (by decide) (by decide) (by decide)
    ⟨"notes".data, by decide⟩ (by decide) (by decide) (by decide)
    (by decide) (by decide) (by decide) (by decide)

end FileOrg
